import Mathlib

/-!
Verification of the phoenix.dash data pipeline (`src/app.py`).

The dataset is embedded as a list of records; the normalization stage of
`load_data` (lines 59-78), the five-dimension filter `filtered_df`
(lines 174-180), the CSV export `csv_data` (line 186) and the ranking
aggregation `grouped` / `grouped_sorted` (lines 281-287) are translated
into executable Lean definitions, and the specified properties are proved
about them.
-/

namespace PhoenixDash

/-- One row of the normalized table produced by `load_data`: the five
categorical dimensions, the numeric value (missing when coercion failed)
and the derived phase ordinal. -/
structure Record where
  Nadador : String
  Estilo : String
  Distancia : Int
  Fase : String
  Parametro : String
  Valor : Option ℚ
  Fase_Orden : Option Nat
deriving DecidableEq

/-- One row as parsed from the source CSV, before normalization: the phase
text is still raw and the value is still textual. -/
structure RawRecord where
  Nadador : String
  Estilo : String
  Distancia : Int
  Fase : String
  Parametro : String
  Valor : String
deriving DecidableEq

/-- Python `str.upper` restricted to the characters this dataset uses:
ASCII letters are upper-cased and the accented vowel `ó` maps to `Ó`;
every other character is unchanged. -/
def pyUpperChar (c : Char) : Char :=
  if c = 'ó' then 'Ó' else c.toUpper

/-- The lookup key built by `df["Fase"].str.upper().str.replace("Ó", "O")`
on line 73: upper-case, then replace the accented `Ó` by `O`. -/
def faseKey (s : String) : String :=
  String.mk ((s.data.map pyUpperChar).map (fun c => if c = 'Ó' then 'O' else c))

/-- The fixed variant table `phase_map` of lines 65-72. -/
def phase_map (t : String) : Option String :=
  if t = "PRE-ELIMINAR" then some "Preliminar"
  else if t = "PRELIMINAR" then some "Preliminar"
  else if t = "PRE ELIMINAR" then some "Preliminar"
  else if t = "SEMIFINAL" then some "Semifinal"
  else if t = "SEMI-FINAL" then some "Semifinal"
  else if t = "FINAL" then some "Final"
  else none

/-- Line 73, `.map(phase_map).fillna(df["Fase"])`: canonicalize one phase
string, keeping the original text verbatim when its key is absent from the
variant table. -/
def canonFase (s : String) : String :=
  match phase_map (faseKey s) with
  | some v => v
  | none => s

/-- Lines 74-75, `order_dict = {"Preliminar": 1, "Semifinal": 2, "Final": 3}`
applied with `.map`: any other label gets a missing ordinal. -/
def faseOrden (f : String) : Option Nat :=
  if f = "Preliminar" then some 1
  else if f = "Semifinal" then some 2
  else if f = "Final" then some 3
  else none

/-- Python `str.strip` on a character list: drop whitespace from both
ends. -/
def pyStrip (l : List Char) : List Char :=
  ((l.dropWhile Char.isWhitespace).reverse.dropWhile Char.isWhitespace).reverse

/-- Value of a digit string in base 10 (used by the numeric coercion
model). -/
def digitsVal (l : List Char) : Nat :=
  l.foldl (fun a c => a * 10 + (c.toNat - 48)) 0

/-- Sign handling of a numeric literal: an optional leading `-` or `+`. -/
def splitSign : List Char → ℚ × List Char
  | '-' :: r => (-1, r)
  | '+' :: r => (1, r)
  | r => (1, r)

/-- Modelled from the library call `pd.to_numeric(·, errors="coerce")` on
line 77, restricted to plain decimal literals: surrounding whitespace is
stripped, an optional sign is followed by integer digits, an optional
point and fractional digits; anything else coerces to missing (`none`)
rather than raising. -/
def parseNum (s : String) : Option ℚ :=
  let p := splitSign (pyStrip s.data)
  match p.2.splitOn '.' with
  | [i] =>
    if i ≠ [] ∧ i.all Char.isDigit then some (p.1 * digitsVal i) else none
  | [i, f] =>
    if (i ≠ [] ∨ f ≠ []) ∧ i.all Char.isDigit ∧ f.all Char.isDigit then
      some (p.1 * (digitsVal i + digitsVal f / 10 ^ f.length))
    else none
  | _ => none

/-- Lines 73-77 of `load_data`, per row: canonicalize the phase, derive the
phase ordinal from the canonical label, coerce the value; the five
dimension fields are carried over unchanged. -/
def loadRow (r : RawRecord) : Record :=
  { Nadador := r.Nadador
    Estilo := r.Estilo
    Distancia := r.Distancia
    Fase := canonFase r.Fase
    Parametro := r.Parametro
    Valor := parseNum r.Valor
    Fase_Orden := faseOrden (canonFase r.Fase) }

/-- The normalization stage of `load_data` applied to every parsed row;
the column assignments of lines 73-77 never add or drop a row. -/
def load_data (rows : List RawRecord) : List Record :=
  rows.map loadRow

/-- Python `str.replace` for a single-character pattern: every occurrence
of `pat` is replaced by `rep`. -/
def replaceChar (pat : Char) (rep : List Char) (l : List Char) : List Char :=
  l.flatMap (fun c => if c = pat then rep else [c])

/-- Line 59, `c.strip().replace("/", "").replace(" ", "_")`: strip outer
whitespace, delete slashes, then replace each space by an underscore. -/
def renameHeader (c : String) : String :=
  String.mk (replaceChar ' ' ['_'] (replaceChar '/' [] (pyStrip c.data)))

/-- Modelled from the spec: "strip whitespace, remove internal spaces and
slashes, from every header" — spaces deleted outright rather than replaced
by underscores.  Used only to compare the spec's wording with the code. -/
def renameHeaderSpec (c : String) : String :=
  String.mk (replaceChar ' ' [] (replaceChar '/' [] (pyStrip c.data)))

/-- Lines 59-63: normalize every header, then rename the legacy phase
column `Cat_Prueba` to `Fase` when present. -/
def renameColumns (cols : List String) : List String :=
  (cols.map renameHeader).map (fun c => if c = "Cat_Prueba" then "Fase" else c)

/-- The five selection sets held in `st.session_state`: swimmers, styles,
distances (`pruebas`), phases and metrics (`parametros`). -/
structure Selections where
  nadadores : List String
  estilos : List String
  pruebas : List Int
  fases : List String
  parametros : List String

/-- The boolean row mask of lines 174-180: membership in all five
selection sets, conjoined. -/
def matchesFilters (sel : Selections) (r : Record) : Bool :=
  sel.nadadores.contains r.Nadador
    && sel.estilos.contains r.Estilo
    && sel.pruebas.contains r.Distancia
    && sel.fases.contains r.Fase
    && sel.parametros.contains r.Parametro

/-- `filtered_df` (lines 174-180): boolean-mask row selection keeps
exactly the rows whose mask is true, in input order. -/
def filtered_df (df : List Record) (sel : Selections) : List Record :=
  df.filter (matchesFilters sel)

/-- Python `str.split()` with no separator, on a character list: split on
whitespace runs, producing no empty tokens.  The accumulator holds the
current token reversed. -/
def pySplitAux : List Char → List Char → List (List Char)
  | [], acc => if acc = [] then [] else [acc.reverse]
  | c :: cs, acc =>
    if c.isWhitespace then
      if acc = [] then pySplitAux cs [] else acc.reverse :: pySplitAux cs []
    else pySplitAux cs (c :: acc)

/-- Python `x.split()` on the characters of a name. -/
def pySplit (l : List Char) : List (List Char) := pySplitAux l []

/-- The mobile display abbreviation of line 285,
`f"{x.split()[0][0]}. {x.split()[-1]}"`: first character of the first
token, a dot, a space, and the last token.  `none` models the Python
`IndexError` raised by `[0]` on an empty token list (the inner `none`
branch is unreachable because split tokens are never empty). -/
def abbrevName (x : String) : Option String :=
  match pySplit x.data with
  | [] => none
  | t :: ts =>
    match t with
    | [] => none
    | c :: _ => some (String.mk (c :: '.' :: ' ' :: ts.getLastD t))

/-- Line 281, `df[df.Parametro == "T TOTAL"].dropna(subset=["Valor"])`:
restrict the unfiltered table to the total-time metric and drop rows with
a missing value. -/
def tiempo_total_df (df : List Record) : List Record :=
  (df.filter (fun r => r.Parametro == "T TOTAL")).filter (fun r => r.Valor.isSome)

/-- A `groupby` key: `(Estilo, Distancia, Nadador)`. -/
abbrev GroupKey : Type := String × Int × String

/-- The grouping key of a record. -/
def keyOf (r : Record) : GroupKey := (r.Estilo, r.Distancia, r.Nadador)

/-- Lexicographic comparison of triples, the order pandas uses both for
sorted group keys and for `sort_values` over three columns. -/
def lexLe3 {α β γ : Type} [LinearOrder α] [LinearOrder β] [LinearOrder γ]
    (a b : α × β × γ) : Bool :=
  decide (a.1 < b.1) || (decide (a.1 = b.1) &&
    (decide (a.2.1 < b.2.1) || (decide (a.2.1 = b.2.1) && decide (a.2.2 ≤ b.2.2))))

/-- Key order for the sorted `groupby` keys. -/
def keyLe (a b : GroupKey) : Bool := lexLe3 a b

/-- The non-missing `Valor`s of one `(Estilo, Distancia, Nadador)` group
after the metric restriction. -/
def groupVals (df : List Record) (k : GroupKey) : List ℚ :=
  (tiempo_total_df df).filterMap (fun r => if keyOf r = k then r.Valor else none)

/-- One output row of the ranking aggregation. -/
structure RankRow where
  Estilo : String
  Distancia : Int
  Nadador : String
  Valor : ℚ
deriving DecidableEq

/-- Build a ranking row from a group key and its aggregated value. -/
def mkRankRow (k : GroupKey) (v : ℚ) : RankRow := ⟨k.1, k.2.1, k.2.2, v⟩

/-- The grouping key of a ranking row. -/
def keyOfRank (row : RankRow) : GroupKey := (row.Estilo, row.Distancia, row.Nadador)

/-- Line 282, `groupby(["Estilo", "Distancia", "Nadador"],
as_index=False)["Valor"].min()`: one row per key occurring in the
restricted table, carrying the group minimum, keys in pandas' sorted key
order. -/
def grouped (df : List Record) : List RankRow :=
  (((tiempo_total_df df).map keyOf).dedup.mergeSort keyLe).filterMap
    (fun k => (groupVals df k).min?.map (mkRankRow k))

/-- Row order of line 287, `sort_values(by=["Estilo", "Distancia",
"Valor"])`. -/
def rankLe (a b : RankRow) : Bool :=
  lexLe3 (a.Estilo, a.Distancia, a.Valor) (b.Estilo, b.Distancia, b.Valor)

/-- `grouped_sorted` (line 287): the ranking rows sorted by style,
distance and aggregated value. -/
def grouped_sorted (df : List Record) : List RankRow :=
  (grouped df).mergeSort rankLe

/-- Sample table for the ranking witness: two swimmers in the same
(style, distance) group. -/
def rankSampleDf : List Record :=
  [⟨"A", "Libre", 50, "Final", "T TOTAL", some 30, some 3⟩,
   ⟨"B", "Libre", 50, "Final", "T TOTAL", some 28, some 3⟩]

/-- Sample ranking row for the witness. -/
def rankSampleRow : RankRow := ⟨"Libre", 50, "B", 28⟩

/-- A CSV field must be quoted when it contains the delimiter, the quote
character or a line-break character (pandas' minimal quoting). -/
def needsQuote (f : List Char) : Bool :=
  f.any (fun c => c = ',' || c = '"' || c = '\n' || c = '\r')

/-- Double every quote character inside a quoted field. -/
def escapeQuotes (f : List Char) : List Char :=
  f.flatMap (fun c => if c = '"' then ['"', '"'] else [c])

/-- Encode one CSV field: quoted with doubled inner quotes when needed,
verbatim otherwise. -/
def escapeField (f : List Char) : List Char :=
  if needsQuote f then '"' :: (escapeQuotes f ++ ['"']) else f

/-- Encode the fields of one CSV row, comma-separated. -/
def encodeRowBody : List (List Char) → List Char
  | [] => []
  | [f] => escapeField f
  | f :: g :: fs => escapeField f ++ ',' :: encodeRowBody (g :: fs)

/-- Encode one CSV row including its terminating newline. -/
def encodeRow (fs : List (List Char)) : List Char := encodeRowBody fs ++ ['\n']

/-- What ended a CSV field: a comma, a row-ending newline, or the end of
the document. -/
inductive Sep where
  | comma : Sep
  | newline : Sep
  | eof : Sep
deriving DecidableEq

/-- The field terminator corresponding to a delimiter character. -/
def sepOfChar (d : Char) : Sep := if d = ',' then Sep.comma else Sep.newline

/-- Modelled from the spec: read an unquoted CSV field up to the next
comma, newline or end of input. -/
def readUnquoted : List Char → List Char × Sep × List Char
  | [] => ([], Sep.eof, [])
  | c :: cs =>
    if c = ',' then ([], Sep.comma, cs)
    else if c = '\n' then ([], Sep.newline, cs)
    else
      let t := readUnquoted cs
      (c :: t.1, t.2)

/-- Modelled from the spec: read the remainder of a quoted CSV field (the
opening quote already consumed); a doubled quote stands for one quote
character, a single quote closes the field. -/
def readQuoted : List Char → List Char × Sep × List Char
  | [] => ([], Sep.eof, [])
  | ['"'] => ([], Sep.eof, [])
  | '"' :: d :: ds =>
    if d = '"' then ('"' :: (readQuoted ds).1, (readQuoted ds).2)
    else if d = ',' then ([], Sep.comma, ds)
    else if d = '\n' then ([], Sep.newline, ds)
    else (d :: (readQuoted ds).1, (readQuoted ds).2)
  | c :: cs => (c :: (readQuoted cs).1, (readQuoted cs).2)

/-- Modelled from the spec: read one CSV field, quoted or unquoted. -/
def readField : List Char → List Char × Sep × List Char
  | [] => ([], Sep.eof, [])
  | c :: cs => if c = '"' then readQuoted cs else readUnquoted (c :: cs)

/-- Modelled from the spec: read the fields of one CSV row; the fuel
bounds the number of fields and is at least the input length plus one. -/
def parseRowF : Nat → List Char → List (List Char) × List Char × Bool
  | 0, _ => ([], [], true)
  | fuel+1, cs =>
    match readField cs with
    | (f, Sep.comma, r) => (f :: (parseRowF fuel r).1, (parseRowF fuel r).2)
    | (f, Sep.newline, r) => ([f], r, false)
    | (f, Sep.eof, r) => ([f], r, true)

/-- Modelled from the spec: read one CSV row; the boolean reports whether
the document ended. -/
def parseRow (cs : List Char) : List (List Char) × List Char × Bool :=
  parseRowF (cs.length + 1) cs

/-- Modelled from the spec: read all CSV rows; the fuel bounds the number
of rows. -/
def parseDocF : Nat → List Char → List (List (List Char))
  | 0, _ => []
  | fuel+1, cs =>
    if cs = [] then []
    else
      (parseRow cs).1 ::
        (if (parseRow cs).2.2 then [] else parseDocF fuel (parseRow cs).2.1)

/-- Fractional decimal digits of a rational in `[0, 1)`, up to the given
number of digits. -/
def fracDigits : Nat → ℚ → List Char
  | 0, _ => []
  | n+1, r =>
    if r = 0 then []
    else
      Char.ofNat (48 + (r * 10).floor.toNat) ::
        fracDigits n (r * 10 - ((r * 10).floor : ℚ))

/-- Decimal rendering of a rational number, as pandas renders a float
value into a CSV cell (truncated after 20 fractional digits). -/
def renderRat (q : ℚ) : String :=
  (if q < 0 then "-" else "") ++ toString (|q|.floor.toNat) ++
    (if |q| - (|q|.floor : ℚ) = 0 then ""
     else "." ++ String.mk (fracDigits 20 (|q| - (|q|.floor : ℚ))))

/-- A missing value is written as an empty CSV cell, as pandas writes
`NaN`. -/
def renderValor : Option ℚ → String
  | none => ""
  | some q => renderRat q

/-- A missing ordinal is written as an empty CSV cell. -/
def renderOrden : Option Nat → String
  | none => ""
  | some n => toString n

/-- The CSV cells of one record, in column order. -/
def fieldsOfRecord (r : Record) : List (List Char) :=
  [r.Nadador.data, r.Estilo.data, (toString r.Distancia).data, r.Fase.data,
   r.Parametro.data, (renderValor r.Valor).data,
   (renderOrden r.Fase_Orden).data]

/-- The header row of the export. -/
def csvHeaderFields : List (List Char) :=
  ["Nadador".data, "Estilo".data, "Distancia".data, "Fase".data,
   "Parametro".data, "Valor".data, "Fase_Orden".data]

/-- `csv_data` (line 186), `filtered_df.to_csv(index=False)`: the header
row followed by one encoded row per filtered record. -/
def csv_data (df : List Record) (sel : Selections) : String :=
  String.mk
    ((csvHeaderFields :: (filtered_df df sel).map fieldsOfRecord).flatMap
      encodeRow)

/-- Modelled from the spec: parse a CSV document back into its rows of
fields ("parsing the encoding back"; the source never re-reads its own
export, so the reader is specified, not taken from `src`). -/
def parseCsv (s : String) : List (List (List Char)) :=
  parseDocF (s.data.length + 1) s.data

/-- C1: a record is in `filtered_df` iff it occurs in the input table and
each of its five dimension values is a member of the corresponding
selection set; moreover the result is a sublist of the input, so input
order is preserved and no reordering happens. -/
theorem filtered_df_mem_iff_and_sublist (df : List Record) (sel : Selections) :
    (∀ r : Record, r ∈ filtered_df df sel ↔
      r ∈ df ∧ r.Nadador ∈ sel.nadadores ∧ r.Estilo ∈ sel.estilos ∧
        r.Distancia ∈ sel.pruebas ∧ r.Fase ∈ sel.fases ∧
        r.Parametro ∈ sel.parametros) ∧
    (filtered_df df sel).Sublist df := by
  refine ⟨fun r => ?_, List.filter_sublist df⟩
  simp [filtered_df, matchesFilters, List.mem_filter, and_assoc]

/-- C7: filtering an already-filtered table again with the same selection
sets returns the same table. -/
theorem filtered_df_idempotent (df : List Record) (sel : Selections) :
    filtered_df (filtered_df df sel) sel = filtered_df df sel := by
  simp [filtered_df, List.filter_filter]

/-- C3: phase canonicalization upper-cases the raw text, maps `Ó` to `O`,
and looks the result up in the fixed variant table; a hit is replaced by
its (unique) canonical label, which is one of Preliminar, Semifinal,
Final, and a miss leaves the original string untouched — no string is
dropped and no error is possible. -/
theorem canonFase_spec (s : String) :
    (∀ v, phase_map (faseKey s) = some v →
      canonFase s = v ∧ (v = "Preliminar" ∨ v = "Semifinal" ∨ v = "Final")) ∧
    (phase_map (faseKey s) = none → canonFase s = s) := by
  constructor
  · intro v hv
    refine ⟨by simp [canonFase, hv], ?_⟩
    unfold phase_map at hv
    split_ifs at hv <;> simp_all
  · intro h
    simp [canonFase, h]

/-- Witness for C3: one variant-table hit and one miss. -/
theorem canonFase_spec_witness :
    canonFase "Pre-Eliminar" = "Preliminar" ∧ canonFase "Heats" = "Heats" :=
  ⟨((canonFase_spec "Pre-Eliminar").1 "Preliminar" (by decide)).1,
   (canonFase_spec "Heats").2 (by decide)⟩

/-- C6: the phase ordinal is exactly Preliminar↦1, Semifinal↦2, Final↦3,
strictly increasing along the canonical phase order, and every other
label yields a missing ordinal. -/
theorem faseOrden_spec :
    faseOrden "Preliminar" = some 1 ∧ faseOrden "Semifinal" = some 2 ∧
    faseOrden "Final" = some 3 ∧ (1 : Nat) < 2 ∧ (2 : Nat) < 3 ∧
    ∀ f : String, f ≠ "Preliminar" → f ≠ "Semifinal" → f ≠ "Final" →
      faseOrden f = none := by
  refine ⟨rfl, rfl, rfl, by decide, by decide, ?_⟩
  intro f h1 h2 h3
  simp [faseOrden, h1, h2, h3]

/-- Witness for C6: an unmapped label has a missing ordinal. -/
theorem faseOrden_spec_witness : faseOrden "Heats" = none :=
  faseOrden_spec.2.2.2.2.2 "Heats" (by decide) (by decide) (by decide)

/-- C4: value coercion is per-row and total — the normalized `Valor` is
the numeric parse of the raw text (missing exactly when parsing fails),
every other field is carried over unchanged, and normalization neither
adds nor drops a row; sample parses show numbers are kept and junk
becomes missing. -/
theorem load_data_valor (rows : List RawRecord) :
    (load_data rows).length = rows.length ∧
    (∀ r : RawRecord, (loadRow r).Valor = parseNum r.Valor ∧
      (loadRow r).Nadador = r.Nadador ∧ (loadRow r).Estilo = r.Estilo ∧
      (loadRow r).Distancia = r.Distancia ∧
      (loadRow r).Parametro = r.Parametro) ∧
    parseNum "30.1" = some (30.1 : ℚ) ∧ parseNum "-2.5" = some (-2.5 : ℚ) ∧
    parseNum "DNF" = none ∧ parseNum "" = none := by
  refine ⟨by simp [load_data], fun r => ⟨rfl, rfl, rfl, rfl, rfl⟩, ?_, ?_, ?_, ?_⟩
  · have h : splitSign (pyStrip "30.1".data) = (1, ['3', '0', '.', '1']) := by decide
    have h2 : digitsVal ['3', '0'] = 30 := by decide
    have h3 : digitsVal ['1'] = 1 := by decide
    show some _ = _
    rw [h]
    show some ((1 : ℚ) * (digitsVal ['3', '0'] +
      digitsVal ['1'] / 10 ^ (['1'] : List Char).length)) = _
    rw [h2, h3]
    norm_num
  · have h : splitSign (pyStrip "-2.5".data) = (-1, ['2', '.', '5']) := by decide
    have h2 : digitsVal ['2'] = 2 := by decide
    have h3 : digitsVal ['5'] = 5 := by decide
    show some _ = _
    rw [h]
    show some ((-1 : ℚ) * (digitsVal ['2'] +
      digitsVal ['5'] / 10 ^ (['5'] : List Char).length)) = _
    rw [h2, h3]
    norm_num
  · decide
  · decide

/-- Helper: a character occurs in `replaceChar pat rep l` only if it
occurs in the replacement or in the original list. -/
theorem mem_replaceChar_elim {c pat : Char} {rep l : List Char}
    (h : c ∈ replaceChar pat rep l) : c ∈ rep ∨ c ∈ l := by
  simp only [replaceChar, List.mem_flatMap] at h
  obtain ⟨a, ha, hm⟩ := h
  by_cases hp : a = pat
  · rw [if_pos hp] at hm
    exact Or.inl hm
  · rw [if_neg hp] at hm
    simp only [List.mem_singleton] at hm
    exact Or.inr (hm ▸ ha)

/-- Helper: the replaced character never survives `replaceChar` when it is
not reintroduced by the replacement. -/
theorem not_mem_replaceChar {pat : Char} {rep l : List Char}
    (h : pat ∉ rep) : pat ∉ replaceChar pat rep l := by
  intro hmem
  simp only [replaceChar, List.mem_flatMap] at hmem
  obtain ⟨a, _, hm⟩ := hmem
  by_cases hp : a = pat
  · rw [if_pos hp] at hm
    exact h hm
  · rw [if_neg hp] at hm
    simp only [List.mem_singleton] at hm
    exact hp hm.symm

/-- C5 counterexample: the code replaces an internal space by an
underscore, while the claim says internal spaces are removed; on the
header `"T TOTAL"` the two disagree. -/
theorem renameHeader_counterexample :
    renameHeader "T TOTAL" = "T_TOTAL" ∧
    renameHeaderSpec "T TOTAL" = "TTOTAL" ∧
    renameHeader "T TOTAL" ≠ renameHeaderSpec "T TOTAL" := by
  refine ⟨by decide, by decide, by decide⟩

/-- C5 (amended): header renaming strips outer whitespace, deletes
slashes and replaces each internal space by an underscore — so no space
or slash survives —, keeps one output header per input header, and the
legacy phase column `Cat_Prueba` is renamed to `Fase`. -/
theorem renameColumns_spec :
    (∀ c : String, ' ' ∉ (renameHeader c).data ∧ '/' ∉ (renameHeader c).data) ∧
    (∀ cols : List String, (renameColumns cols).length = cols.length) ∧
    renameColumns ["Nadador", "Cat_Prueba", "T TOTAL / x"] =
      ["Nadador", "Fase", "T_TOTAL__x"] := by
  refine ⟨fun c => ⟨?_, ?_⟩, fun cols => by simp [renameColumns], by decide⟩
  · exact not_mem_replaceChar (by decide)
  · intro hmem
    rcases mem_replaceChar_elim hmem with h | h
    · exact absurd h (by decide)
    · exact absurd h (not_mem_replaceChar (by decide))

/-- Helper: every token produced by the splitter is nonempty. -/
theorem ne_nil_of_mem_pySplitAux {t : List Char} :
    ∀ (l acc : List Char), t ∈ pySplitAux l acc → t ≠ [] := by
  intro l
  induction l with
  | nil =>
    intro acc h
    by_cases ha : acc = []
    · simp [pySplitAux, ha] at h
    · simp [pySplitAux, ha] at h
      subst h
      simpa using ha
  | cons c cs ih =>
    intro acc h
    by_cases hw : c.isWhitespace
    · by_cases ha : acc = []
      · simp [pySplitAux, hw, ha] at h
        exact ih [] h
      · simp [pySplitAux, hw, ha] at h
        rcases h with h | h
        · subst h; simpa using ha
        · exact ih [] h
    · simp [pySplitAux, hw] at h
      exact ih (c :: acc) h

/-- Helper: every token produced by the splitter is whitespace-free, given
a whitespace-free accumulator. -/
theorem nonws_of_mem_pySplitAux {t : List Char} :
    ∀ (l acc : List Char), (∀ a ∈ acc, ¬a.isWhitespace) →
      t ∈ pySplitAux l acc → ∀ a ∈ t, ¬a.isWhitespace := by
  intro l
  induction l with
  | nil =>
    intro acc hacc h
    by_cases ha : acc = []
    · simp [pySplitAux, ha] at h
    · simp [pySplitAux, ha] at h
      subst h
      intro a hmem
      exact hacc a (List.mem_reverse.mp hmem)
  | cons c cs ih =>
    intro acc hacc h
    by_cases hw : c.isWhitespace
    · by_cases ha : acc = []
      · simp [pySplitAux, hw, ha] at h
        exact ih [] (by simp) h
      · simp [pySplitAux, hw, ha] at h
        rcases h with h | h
        · subst h
          intro a hmem
          exact hacc a (List.mem_reverse.mp hmem)
        · exact ih [] (by simp) h
    · simp [pySplitAux, hw] at h
      refine ih (c :: acc) ?_ h
      intro a hmem
      rcases List.mem_cons.mp hmem with rfl | hmem
      · exact hw
      · exact hacc a hmem

/-- Helper: an all-whitespace input splits into no tokens. -/
theorem pySplitAux_eq_nil (l : List Char) (h : ∀ c ∈ l, c.isWhitespace) :
    pySplitAux l [] = [] := by
  induction l with
  | nil => simp [pySplitAux]
  | cons c cs ih =>
    have hc : c.isWhitespace := h c (by simp)
    simp [pySplitAux, hc]
    exact ih (fun a ha => h a (by simp [ha]))

/-- Helper: a nonempty accumulator always yields at least one token. -/
theorem pySplitAux_acc_ne_nil :
    ∀ (l acc : List Char), acc ≠ [] → pySplitAux l acc ≠ [] := by
  intro l
  induction l with
  | nil => intro acc ha; simp [pySplitAux, ha]
  | cons c cs ih =>
    intro acc ha
    by_cases hw : c.isWhitespace
    · simp [pySplitAux, hw, ha]
    · simp [pySplitAux, hw]
      exact ih (c :: acc) (by simp)

/-- Helper: an input with a non-whitespace character splits into at least
one token. -/
theorem pySplitAux_ne_nil :
    ∀ (l acc : List Char), (∃ c ∈ l, ¬c.isWhitespace) →
      pySplitAux l acc ≠ [] := by
  intro l
  induction l with
  | nil => intro acc h; simp at h
  | cons c cs ih =>
    intro acc h
    by_cases hw : c.isWhitespace
    · have h' : ∃ a ∈ cs, ¬a.isWhitespace := by
        rcases h with ⟨a, ha, hna⟩
        rcases List.mem_cons.mp ha with rfl | ha
        · exact absurd hw hna
        · exact ⟨a, ha, hna⟩
      by_cases ha : acc = []
      · simp [pySplitAux, hw, ha]
        exact ih [] h'
      · simp [pySplitAux, hw, ha]
    · simp [pySplitAux, hw]
      exact pySplitAux_acc_ne_nil cs (c :: acc) (by simp)

/-- Helper: a nonempty whitespace-free input is a single token, appended
to the pending accumulator. -/
theorem pySplitAux_single :
    ∀ (l acc : List Char), l ≠ [] → (∀ a ∈ l, ¬a.isWhitespace) →
      pySplitAux l acc = [acc.reverse ++ l] := by
  intro l
  induction l with
  | nil => intro acc h; exact absurd rfl h
  | cons c cs ih =>
    intro acc _ hws
    have hc : ¬c.isWhitespace := hws c (by simp)
    simp only [pySplitAux, if_neg hc]
    by_cases hcs : cs = []
    · subst hcs
      simp [pySplitAux]
    · rw [ih (c :: acc) hcs (fun a ha => hws a (by simp [ha]))]
      simp

/-- Helper: an abbreviated name `"C. Last"` splits into exactly the two
tokens `["C.", "Last"]`. -/
theorem pySplit_abbrev (c : Char) (last : List Char) (hc : ¬c.isWhitespace)
    (hl : last ≠ []) (hw : ∀ a ∈ last, ¬a.isWhitespace) :
    pySplit (c :: '.' :: ' ' :: last) = [[c, '.'], last] := by
  have hdot : ¬('.' : Char).isWhitespace := by decide
  have hsp : (' ' : Char).isWhitespace := by decide
  show pySplitAux (c :: '.' :: ' ' :: last) [] = _
  simp only [pySplitAux, if_neg hc, if_neg hdot, if_pos hsp]
  rw [if_neg (by simp : ¬(['.', c] : List Char) = [])]
  rw [pySplitAux_single last [] hl hw]
  simp

/-- C9 counterexample: abbreviating "Jane Doe" gives "J. Doe", and
re-applying the transform to "J. Doe" returns "J. Doe" itself — not a
string different from "J. Doe" as the claim asserts. -/
theorem abbrevName_counterexample :
    abbrevName "Jane Doe" = some "J. Doe" ∧
    abbrevName "J. Doe" = some "J. Doe" := by
  refine ⟨by decide, by decide⟩

/-- C9 (amended): the abbreviation maps "Jane Doe" to "J. Doe", and the
transform is idempotent on every name it produces: re-applying it to any
abbreviated name returns that name unchanged, never a malformed string. -/
theorem abbrevName_idempotent :
    abbrevName "Jane Doe" = some "J. Doe" ∧
    ∀ x s : String, abbrevName x = some s → abbrevName s = some s := by
  refine ⟨by decide, ?_⟩
  intro x s h
  cases hsplit : pySplit x.data with
  | nil => simp [abbrevName, hsplit] at h
  | cons t ts =>
    cases t with
    | nil =>
      have : ([] : List Char) ∈ pySplitAux x.data [] := by
        rw [show pySplitAux x.data [] = pySplit x.data from rfl, hsplit]
        exact List.mem_cons_self _ _
      exact absurd rfl (ne_nil_of_mem_pySplitAux x.data [] this)
    | cons c cs =>
      simp only [abbrevName, hsplit, Option.some_inj] at h
      have hmem : ts.getLastD (c :: cs) ∈ pySplit x.data := by
        rw [hsplit]
        exact List.getLastD_mem_cons ts (c :: cs)
      have hlne : ts.getLastD (c :: cs) ≠ [] :=
        ne_nil_of_mem_pySplitAux x.data [] hmem
      have hlws : ∀ a ∈ ts.getLastD (c :: cs), ¬a.isWhitespace :=
        nonws_of_mem_pySplitAux x.data [] (by simp) hmem
      have hcmem : (c :: cs) ∈ pySplit x.data := by
        rw [hsplit]
        exact List.mem_cons_self _ _
      have hcws : ¬c.isWhitespace :=
        nonws_of_mem_pySplitAux x.data [] (by simp) hcmem c (by simp)
      subst h
      simp only [abbrevName]
      rw [pySplit_abbrev c (ts.getLastD (c :: cs)) hcws hlne hlws]
      simp [List.getLastD]

/-- Witness for C9: re-application at the concrete abbreviated name. -/
theorem abbrevName_idempotent_witness :
    abbrevName "J. Doe" = some "J. Doe" :=
  abbrevName_idempotent.2 "Jane Doe" "J. Doe" (by decide)

/-- C10: whenever the name splits into at least one token the abbreviation
returns the first character of the first token, a dot and a space, then
the last token; it returns a value exactly when the name contains a
non-whitespace character, and on a blank name the indexing has no value
(the source's error branch is reachable), so safe display needs non-blank
swimmer names. -/
theorem abbrevName_defined_iff :
    (∀ (x : String) (t : List Char) (ts : List (List Char)),
      pySplit x.data = t :: ts → ∃ c cs, t = c :: cs ∧
        abbrevName x = some (String.mk (c :: '.' :: ' ' :: ts.getLastD t))) ∧
    (∀ x : String, (abbrevName x).isSome ↔ ∃ c ∈ x.data, ¬c.isWhitespace) ∧
    abbrevName "" = none ∧ abbrevName "   " = none := by
  refine ⟨?_, ?_, by decide, by decide⟩
  · intro x t ts h
    cases t with
    | nil =>
      have : ([] : List Char) ∈ pySplitAux x.data [] := by
        rw [show pySplitAux x.data [] = pySplit x.data from rfl, h]
        exact List.mem_cons_self _ _
      exact absurd rfl (ne_nil_of_mem_pySplitAux x.data [] this)
    | cons c cs =>
      exact ⟨c, cs, rfl, by simp [abbrevName, h]⟩
  · intro x
    constructor
    · intro hs
      by_contra hno
      push_neg at hno
      have : pySplit x.data = [] := pySplitAux_eq_nil x.data hno
      simp [abbrevName, this] at hs
    · rintro ⟨c0, hc0, hn0⟩
      have hne : pySplit x.data ≠ [] :=
        pySplitAux_ne_nil x.data [] ⟨c0, hc0, hn0⟩
      cases hsplit : pySplit x.data with
      | nil => exact absurd hsplit hne
      | cons t ts =>
        cases t with
        | nil =>
          have : ([] : List Char) ∈ pySplitAux x.data [] := by
            rw [show pySplitAux x.data [] = pySplit x.data from rfl, hsplit]
            exact List.mem_cons_self _ _
          exact absurd rfl (ne_nil_of_mem_pySplitAux x.data [] this)
        | cons c cs => simp [abbrevName, hsplit]

/-- Witness for C10: the token-shape clause applied at "Jane Doe". -/
theorem abbrevName_defined_iff_witness :
    ∃ c cs, (['J', 'a', 'n', 'e'] : List Char) = c :: cs ∧
      abbrevName "Jane Doe" = some (String.mk (c :: '.' :: ' ' ::
        List.getLastD [['D', 'o', 'e']] ['J', 'a', 'n', 'e'])) :=
  abbrevName_defined_iff.1 "Jane Doe" ['J', 'a', 'n', 'e'] [['D', 'o', 'e']]
    (by decide)

/-- Helper: `lexLe3` is transitive. -/
theorem lexLe3_trans {α β γ : Type} [LinearOrder α] [LinearOrder β]
    [LinearOrder γ] (a b c : α × β × γ)
    (h1 : lexLe3 a b = true) (h2 : lexLe3 b c = true) : lexLe3 a c = true := by
  simp only [lexLe3, Bool.or_eq_true, Bool.and_eq_true, decide_eq_true_eq] at *
  rcases h1 with h1 | ⟨e1, h1⟩
  · rcases h2 with h2 | ⟨e2, h2⟩
    · exact Or.inl (lt_trans h1 h2)
    · exact Or.inl (lt_of_lt_of_eq h1 e2)
  · rcases h2 with h2 | ⟨e2, h2⟩
    · exact Or.inl (lt_of_eq_of_lt e1 h2)
    · refine Or.inr ⟨e1.trans e2, ?_⟩
      rcases h1 with h1 | ⟨f1, h1⟩
      · rcases h2 with h2 | ⟨f2, h2⟩
        · exact Or.inl (lt_trans h1 h2)
        · exact Or.inl (lt_of_lt_of_eq h1 f2)
      · rcases h2 with h2 | ⟨f2, h2⟩
        · exact Or.inl (lt_of_eq_of_lt f1 h2)
        · exact Or.inr ⟨f1.trans f2, le_trans h1 h2⟩

/-- Helper: `lexLe3` is total. -/
theorem lexLe3_total {α β γ : Type} [LinearOrder α] [LinearOrder β]
    [LinearOrder γ] (a b : α × β × γ) : (lexLe3 a b || lexLe3 b a) = true := by
  simp only [lexLe3, Bool.or_eq_true, Bool.and_eq_true, decide_eq_true_eq]
  rcases lt_trichotomy a.1 b.1 with h | h | h
  · exact Or.inl (Or.inl h)
  · rcases lt_trichotomy a.2.1 b.2.1 with h' | h' | h'
    · exact Or.inl (Or.inr ⟨h, Or.inl h'⟩)
    · rcases le_total a.2.2 b.2.2 with h'' | h''
      · exact Or.inl (Or.inr ⟨h, Or.inr ⟨h', h''⟩⟩)
      · exact Or.inr (Or.inr ⟨h.symm, Or.inr ⟨h'.symm, h''⟩⟩)
    · exact Or.inr (Or.inr ⟨h.symm, Or.inl h'⟩)
  · exact Or.inr (Or.inl h)

/-- Helper: a computed list minimum is a member and a lower bound. -/
theorem min?_spec {xs : List ℚ} {a : ℚ} (h : xs.min? = some a) :
    a ∈ xs ∧ ∀ b ∈ xs, a ≤ b := by
  haveI : Std.Antisymm (fun x1 x2 : ℚ => x1 ≤ x2) :=
    ⟨@fun x y h h' => le_antisymm h h'⟩
  rw [List.min?_eq_some_iff] at h
  · exact h
  · exact fun x => le_refl x
  · exact fun x y => min_choice x y
  · exact fun x y z => le_min_iff

/-- Helper: a list has a minimum exactly when it is nonempty. -/
theorem min?_isSome_iff (xs : List ℚ) : xs.min?.isSome ↔ xs ≠ [] := by
  cases xs <;> simp [List.min?]

/-- Helper: counting elements equal to `k` that satisfy `c` in a
duplicate-free list. -/
theorem countP_eq_of_nodup {α : Type} [DecidableEq α] :
    ∀ (l : List α) (k : α) (c : α → Bool), l.Nodup →
      l.countP (fun a => decide (a = k) && c a) =
        if k ∈ l ∧ c k then 1 else 0 := by
  intro l
  induction l with
  | nil => intro k c _; simp
  | cons a l ih =>
    intro k c hnd
    obtain ⟨ha, hl⟩ := List.nodup_cons.mp hnd
    rw [List.countP_cons, ih k c hl]
    by_cases hak : a = k
    · subst hak
      have hz : ¬(a ∈ l ∧ c a = true) := fun hc => ha hc.1
      rw [if_neg hz]
      by_cases hc : c a = true
      · simp [hc]
      · simp [hc]
    · have hka : ¬k = a := fun h => hak h.symm
      have hpa : (decide (a = k) && c a) = false := by simp [hak]
      rw [hpa]
      simp [List.mem_cons, hka]

/-- Helper: the key of a built ranking row is the key it was built from. -/
theorem keyOfRank_mkRankRow (k : GroupKey) (v : ℚ) :
    keyOfRank (mkRankRow k v) = k := rfl

/-- Helper: the ranking row order is transitive. -/
theorem rankLe_trans (a b c : RankRow) (h1 : rankLe a b = true)
    (h2 : rankLe b c = true) : rankLe a c = true :=
  lexLe3_trans _ _ _ h1 h2

/-- Helper: the ranking row order is total. -/
theorem rankLe_total (a b : RankRow) : (rankLe a b || rankLe b a) = true :=
  lexLe3_total _ _

/-- Helper: membership in the metric-and-missing restriction of the
table. -/
theorem mem_tiempo_total (df : List Record) (r : Record) :
    r ∈ tiempo_total_df df ↔
      r ∈ df ∧ r.Parametro = "T TOTAL" ∧ r.Valor.isSome := by
  simp only [tiempo_total_df, List.mem_filter, beq_iff_eq]
  constructor
  · rintro ⟨⟨hdf, hp⟩, hv⟩
    exact ⟨hdf, hp, hv⟩
  · rintro ⟨hdf, hp, hv⟩
    exact ⟨⟨hdf, hp⟩, hv⟩

/-- Helper: the values of a group are exactly the non-missing total-time
values of the records with that key. -/
theorem mem_groupVals (df : List Record) (k : GroupKey) (v : ℚ) :
    v ∈ groupVals df k ↔
      ∃ r ∈ df, r.Parametro = "T TOTAL" ∧ keyOf r = k ∧ r.Valor = some v := by
  simp only [groupVals, List.mem_filterMap]
  constructor
  · rintro ⟨r, hr, hv⟩
    by_cases hk : keyOf r = k
    · rw [if_pos hk] at hv
      rw [mem_tiempo_total] at hr
      exact ⟨r, hr.1, hr.2.1, hk, hv⟩
    · rw [if_neg hk] at hv
      cases hv
  · rintro ⟨r, hrdf, hp, hk, hv⟩
    refine ⟨r, (mem_tiempo_total df r).mpr ⟨hrdf, hp, by simp [hv]⟩, ?_⟩
    rw [if_pos hk, hv]

/-- Helper: membership in the sorted, deduplicated key list of the
ranking. -/
theorem mem_rankKeys (df : List Record) (k : GroupKey) :
    k ∈ ((tiempo_total_df df).map keyOf).dedup.mergeSort keyLe ↔
      ∃ r ∈ df, r.Parametro = "T TOTAL" ∧ keyOf r = k ∧ r.Valor.isSome := by
  rw [(List.mergeSort_perm _ keyLe).mem_iff, List.mem_dedup, List.mem_map]
  constructor
  · rintro ⟨r, hr, rfl⟩
    rw [mem_tiempo_total] at hr
    exact ⟨r, hr.1, hr.2.1, rfl, hr.2.2⟩
  · rintro ⟨r, hrdf, hp, hk, hv⟩
    exact ⟨r, (mem_tiempo_total df r).mpr ⟨hrdf, hp, hv⟩, hk⟩

/-- C2: the ranking table has exactly one row per (style, distance,
swimmer) group owning at least one non-missing total-time value (and none
for all-missing or absent groups); each row's value is attained by some
record of its group and is a lower bound for all of the group's
non-missing values; and the rows are sorted by (style, distance, value),
hence ascending by value inside each (style, distance) partition. -/
theorem grouped_sorted_spec (df : List Record) :
    (∀ k : GroupKey,
      (grouped_sorted df).countP (fun row => decide (keyOfRank row = k)) =
        if ∃ r ∈ df, r.Parametro = "T TOTAL" ∧ keyOf r = k ∧ r.Valor.isSome
        then 1 else 0) ∧
    (∀ row ∈ grouped_sorted df,
      (∃ r ∈ df, r.Parametro = "T TOTAL" ∧ keyOf r = keyOfRank row ∧
        r.Valor = some row.Valor) ∧
      (∀ r ∈ df, r.Parametro = "T TOTAL" → keyOf r = keyOfRank row →
        ∀ v, r.Valor = some v → row.Valor ≤ v)) ∧
    List.Pairwise (fun a b => rankLe a b = true) (grouped_sorted df) ∧
    List.Pairwise (fun a b : RankRow =>
      a.Estilo = b.Estilo → a.Distancia = b.Distancia → a.Valor ≤ b.Valor)
      (grouped_sorted df) := by
  have hsorted : List.Pairwise (fun a b => rankLe a b = true) (grouped_sorted df) := by
    unfold grouped_sorted
    exact List.sorted_mergeSort rankLe_trans rankLe_total (grouped df)
  refine ⟨?_, ?_, hsorted, ?_⟩
  · intro k
    unfold grouped_sorted
    rw [List.Perm.countP_eq _ (List.mergeSort_perm (grouped df) rankLe)]
    unfold grouped
    rw [List.countP_filterMap]
    have hfun : (fun k' => (Option.map (fun row => decide (keyOfRank row = k))
        (Option.map (mkRankRow k') (groupVals df k').min?)).getD false) =
        fun k' => decide (k' = k) && (groupVals df k').min?.isSome := by
      funext k'
      cases h : (groupVals df k').min? with
      | none => simp [h]
      | some v => simp [h, keyOfRank_mkRankRow]
    rw [hfun, countP_eq_of_nodup _ k _
      ((List.mergeSort_perm _ keyLe).symm.nodup (List.nodup_dedup _))]
    by_cases hex : ∃ r ∈ df, r.Parametro = "T TOTAL" ∧ keyOf r = k ∧
      r.Valor.isSome = true
    · have hks : k ∈ ((tiempo_total_df df).map keyOf).dedup.mergeSort keyLe :=
        (mem_rankKeys df k).mpr hex
      have hsome : (groupVals df k).min?.isSome = true := by
        obtain ⟨r, hrdf, hp, hk, hv⟩ := hex
        obtain ⟨v, hv'⟩ := Option.isSome_iff_exists.mp hv
        exact (min?_isSome_iff _).mpr
          (List.ne_nil_of_mem ((mem_groupVals df k v).mpr ⟨r, hrdf, hp, hk, hv'⟩))
      rw [if_pos ⟨hks, hsome⟩, if_pos hex]
    · rw [if_neg hex, if_neg (fun hc => hex ((mem_rankKeys df k).mp hc.1))]
  · intro row hrow
    rw [grouped_sorted] at hrow
    have hrow' : row ∈ grouped df :=
      (List.mergeSort_perm _ rankLe).mem_iff.mp hrow
    simp only [grouped, List.mem_filterMap] at hrow'
    obtain ⟨k, hk, hf⟩ := hrow'
    rw [Option.map_eq_some'] at hf
    obtain ⟨v, hmin, hrw⟩ := hf
    subst hrw
    have hspec := min?_spec hmin
    constructor
    · have := (mem_groupVals df k v).mp hspec.1
      simpa [keyOfRank_mkRankRow, mkRankRow] using this
    · intro r hrdf hp hkr v' hv'
      have hv'mem : v' ∈ groupVals df k :=
        (mem_groupVals df k v').mpr
          ⟨r, hrdf, hp, by simpa [keyOfRank_mkRankRow] using hkr, hv'⟩
      exact hspec.2 v' hv'mem
  · refine hsorted.imp ?_
    intro a b hab he hd
    simp only [rankLe, lexLe3, Bool.or_eq_true, Bool.and_eq_true,
      decide_eq_true_eq] at hab
    rcases hab with h | ⟨e1, h | ⟨e2, h⟩⟩
    · rw [he] at h
      exact absurd h (lt_irrefl _)
    · rw [hd] at h
      exact absurd h (lt_irrefl _)
    · exact h

/-- Witness for C2: the attainment clause at a concrete table and row. -/
theorem grouped_sorted_spec_witness :
    ∃ r ∈ rankSampleDf, r.Parametro = "T TOTAL" ∧
      keyOf r = keyOfRank rankSampleRow ∧ r.Valor = some rankSampleRow.Valor :=
  ((grouped_sorted_spec rankSampleDf).2.1 rankSampleRow
    ((List.mergeSort_perm (grouped rankSampleDf) rankLe).mem_iff.mpr
      (List.mem_filterMap.mpr ⟨("Libre", 50, "B"),
        (List.mergeSort_perm _ keyLe).mem_iff.mpr (by decide),
        by decide⟩))).1

/-- Helper: reading an unquoted encoded field stops at its delimiter. -/
theorem readUnquoted_comma (x : List Char) :
    readUnquoted (',' :: x) = ([], Sep.comma, x) := by
  simp [readUnquoted]

/-- Helper: reading an unquoted field stops at a newline. -/
theorem readUnquoted_newline (x : List Char) :
    readUnquoted ('\n' :: x) = ([], Sep.newline, x) := by
  simp [readUnquoted]

/-- Helper: an ordinary character is accumulated into the field. -/
theorem readUnquoted_other (c : Char) (x : List Char)
    (h1 : c ≠ ',') (h2 : c ≠ '\n') :
    readUnquoted (c :: x) = (c :: (readUnquoted x).1, (readUnquoted x).2) := by
  simp [readUnquoted, h1, h2]

/-- Helper: a doubled quote inside a quoted field yields one quote. -/
theorem readQuoted_quote_quote (x : List Char) :
    readQuoted ('"' :: '"' :: x) =
      ('"' :: (readQuoted x).1, (readQuoted x).2) := by
  simp [readQuoted]

/-- Helper: a closing quote followed by a comma ends the field. -/
theorem readQuoted_quote_comma (x : List Char) :
    readQuoted ('"' :: ',' :: x) = ([], Sep.comma, x) := by
  simp [readQuoted]

/-- Helper: a closing quote followed by a newline ends the field. -/
theorem readQuoted_quote_newline (x : List Char) :
    readQuoted ('"' :: '\n' :: x) = ([], Sep.newline, x) := by
  simp [readQuoted]

/-- Helper: an ordinary character inside a quoted field is accumulated. -/
theorem readQuoted_other (c : Char) (x : List Char) (hc : c ≠ '"') :
    readQuoted (c :: x) = (c :: (readQuoted x).1, (readQuoted x).2) := by
  cases x with
  | nil => simp [readQuoted, hc]
  | cons d ds => simp [readQuoted, hc]

/-- Helper: reading a delimiter-free field followed by a delimiter
returns the field and the delimiter's terminator. -/
theorem readUnquoted_append (f : List Char) (d : Char) (rest : List Char)
    (hf : ∀ c ∈ f, c ≠ ',' ∧ c ≠ '\n') (hd : d = ',' ∨ d = '\n') :
    readUnquoted (f ++ d :: rest) = (f, sepOfChar d, rest) := by
  induction f with
  | nil =>
    rcases hd with rfl | rfl
    · rw [List.nil_append, readUnquoted_comma]
      simp [sepOfChar]
    · rw [List.nil_append, readUnquoted_newline]
      simp [sepOfChar]
  | cons c f ih =>
    have hc := hf c (by simp)
    rw [List.cons_append, readUnquoted_other c _ hc.1 hc.2,
      ih (fun a ha => hf a (by simp [ha]))]

/-- Helper: escaping splits off a doubled quote. -/
theorem escapeQuotes_cons_quote (f : List Char) :
    escapeQuotes ('"' :: f) = '"' :: '"' :: escapeQuotes f := by
  simp [escapeQuotes]

/-- Helper: escaping leaves a non-quote character alone. -/
theorem escapeQuotes_cons (c : Char) (f : List Char) (hc : c ≠ '"') :
    escapeQuotes (c :: f) = c :: escapeQuotes f := by
  simp [escapeQuotes, hc]

/-- Helper: reading an escaped quoted field body followed by the closing
quote and a delimiter recovers the field. -/
theorem readQuoted_append (f : List Char) (d : Char) (rest : List Char)
    (hd : d = ',' ∨ d = '\n') :
    readQuoted (escapeQuotes f ++ '"' :: d :: rest) = (f, sepOfChar d, rest) := by
  induction f with
  | nil =>
    rcases hd with rfl | rfl
    · rw [show escapeQuotes [] = [] from rfl, List.nil_append,
        readQuoted_quote_comma]
      simp [sepOfChar]
    · rw [show escapeQuotes [] = [] from rfl, List.nil_append,
        readQuoted_quote_newline]
      simp [sepOfChar]
  | cons c f ih =>
    by_cases hc : c = '"'
    · subst hc
      rw [escapeQuotes_cons_quote, List.cons_append, List.cons_append,
        readQuoted_quote_quote, ih]
    · rw [escapeQuotes_cons c f hc, List.cons_append,
        readQuoted_other c _ hc, ih]

/-- Helper: reading an encoded field followed by a delimiter recovers the
original field, quoted or not. -/
theorem readField_append (f : List Char) (d : Char) (rest : List Char)
    (hd : d = ',' ∨ d = '\n') :
    readField (escapeField f ++ d :: rest) = (f, sepOfChar d, rest) := by
  by_cases hq : needsQuote f
  · rw [show escapeField f = '"' :: (escapeQuotes f ++ ['"']) from if_pos hq]
    rw [List.cons_append, List.append_assoc,
      show (['"'] : List Char) ++ d :: rest = '"' :: d :: rest from rfl]
    rw [show readField ('"' :: (escapeQuotes f ++ '"' :: d :: rest)) =
      readQuoted (escapeQuotes f ++ '"' :: d :: rest) from by simp [readField]]
    exact readQuoted_append f d rest hd
  · have hf : ∀ c ∈ f, ¬(c = ',' ∨ c = '"' ∨ c = '\n' ∨ c = '\r') := by
      intro c hcmem
      have := List.any_eq_false.mp (Bool.not_eq_true _ ▸ hq) c hcmem
      simpa [and_assoc] using this
    rw [show escapeField f = f from if_neg hq]
    cases f with
    | nil =>
      rcases hd with rfl | rfl
      · rw [List.nil_append,
          show readField (',' :: rest) = readUnquoted (',' :: rest) from by
            simp [readField],
          readUnquoted_comma]
        simp [sepOfChar]
      · rw [List.nil_append,
          show readField ('\n' :: rest) = readUnquoted ('\n' :: rest) from by
            simp [readField],
          readUnquoted_newline]
        simp [sepOfChar]
    | cons c f' =>
      have hcq : c ≠ '"' := fun h => (hf c (by simp)) (Or.inr (Or.inl h))
      rw [List.cons_append,
        show readField (c :: (f' ++ d :: rest)) =
          readUnquoted (c :: (f' ++ d :: rest)) from by simp [readField, hcq]]
      rw [show (c :: (f' ++ d :: rest)) = ((c :: f') ++ d :: rest) from rfl]
      refine readUnquoted_append (c :: f') d rest ?_ hd
      intro a ha
      have := hf a ha
      exact ⟨fun h => this (Or.inl h), fun h => this (Or.inr (Or.inr (Or.inl h)))⟩

/-- Helper: with enough fuel, reading an encoded row recovers its
fields and stops exactly after the row's newline. -/
theorem parseRowF_encode :
    ∀ (fs : List (List Char)), fs ≠ [] → ∀ (fuel : Nat), fs.length ≤ fuel →
      ∀ (rest : List Char),
      parseRowF fuel (encodeRowBody fs ++ '\n' :: rest) = (fs, rest, false) := by
  intro fs
  induction fs with
  | nil => intro h; exact absurd rfl h
  | cons f fs ih =>
    intro _ fuel hlen rest
    cases fuel with
    | zero => simp at hlen
    | succ n =>
      cases fs with
      | nil =>
        rw [show encodeRowBody [f] = escapeField f from rfl]
        simp only [parseRowF]
        rw [readField_append f '\n' rest (Or.inr rfl)]
        rfl
      | cons g fs =>
        rw [show encodeRowBody (f :: g :: fs) =
          escapeField f ++ ',' :: encodeRowBody (g :: fs) from rfl]
        rw [List.append_assoc, List.cons_append]
        simp only [parseRowF]
        rw [readField_append f ','
          (encodeRowBody (g :: fs) ++ '\n' :: rest) (Or.inl rfl)]
        show (f :: (parseRowF n (encodeRowBody (g :: fs) ++ '\n' :: rest)).1,
          (parseRowF n (encodeRowBody (g :: fs) ++ '\n' :: rest)).2) = _
        rw [ih (by simp) n (by simp at hlen ⊢; omega) rest]

/-- Helper: a row never has more fields than encoded characters plus
one. -/
theorem encodeRowBody_length_ge :
    ∀ fs : List (List Char), fs.length ≤ (encodeRowBody fs).length + 1 := by
  intro fs
  induction fs with
  | nil => simp [encodeRowBody]
  | cons f fs ih =>
    cases fs with
    | nil => simp [encodeRowBody]
    | cons g fs =>
      rw [show encodeRowBody (f :: g :: fs) =
        escapeField f ++ ',' :: encodeRowBody (g :: fs) from rfl]
      simp only [List.length_append, List.length_cons] at ih ⊢
      omega

/-- Helper: reading an encoded row with the default fuel recovers its
fields. -/
theorem parseRow_encode (fs : List (List Char)) (rest : List Char)
    (h : fs ≠ []) :
    parseRow (encodeRowBody fs ++ '\n' :: rest) = (fs, rest, false) := by
  apply parseRowF_encode fs h
  have h1 := encodeRowBody_length_ge fs
  simp only [List.length_append, List.length_cons]
  omega

/-- Helper: with enough fuel, parsing an encoded document recovers every
row. -/
theorem parseDocF_encode :
    ∀ (rows : List (List (List Char))) (fuel : Nat),
      (∀ r ∈ rows, r ≠ []) → rows.length ≤ fuel →
      parseDocF fuel (rows.flatMap encodeRow) = rows := by
  intro rows
  induction rows with
  | nil =>
    intro fuel _ _
    cases fuel <;> simp [parseDocF]
  | cons r rows ih =>
    intro fuel hne hlen
    cases fuel with
    | zero => simp at hlen
    | succ n =>
      have hr : r ≠ [] := hne r (by simp)
      rw [show (r :: rows).flatMap encodeRow =
        encodeRowBody r ++ '\n' :: rows.flatMap encodeRow from by
          simp [encodeRow]]
      have hcs : encodeRowBody r ++ '\n' :: rows.flatMap encodeRow ≠ [] := by
        simp
      simp only [parseDocF, if_neg hcs]
      rw [parseRow_encode r _ hr]
      simp only []
      rw [ih n (fun a ha => hne a (by simp [ha])) (by simp at hlen ⊢; omega)]
      simp

/-- Helper: a document never has more rows than characters. -/
theorem flatMap_encodeRow_length (rows : List (List (List Char))) :
    rows.length ≤ (rows.flatMap encodeRow).length := by
  induction rows with
  | nil => simp
  | cons r rows ih =>
    simp only [List.flatMap_cons, List.length_append, List.length_cons]
    have h2 : (encodeRow r).length = (encodeRowBody r).length + 1 := by
      simp [encodeRow]
    omega

/-- C8: parsing the CSV export of the filtered table yields exactly the
header row followed by the rendered cells of each filtered record, row
for row and column for column (values compared through their rendered
cells, i.e. up to the value column's type coercion). -/
theorem csv_roundtrip (df : List Record) (sel : Selections) :
    parseCsv (csv_data df sel) =
      csvHeaderFields :: (filtered_df df sel).map fieldsOfRecord := by
  unfold parseCsv csv_data
  show parseDocF _
    ((csvHeaderFields :: (filtered_df df sel).map fieldsOfRecord).flatMap
      encodeRow) = _
  refine parseDocF_encode _ _ ?_ ?_
  · intro r hr
    rcases List.mem_cons.mp hr with rfl | hr
    · simp [csvHeaderFields]
    · obtain ⟨rec, _, rfl⟩ := List.mem_map.mp hr
      simp [fieldsOfRecord]
  · have h := flatMap_encodeRow_length
      (csvHeaderFields :: (filtered_df df sel).map fieldsOfRecord)
    show _ ≤ ((csvHeaderFields :: (filtered_df df sel).map fieldsOfRecord).flatMap
      encodeRow).length + 1
    omega

end PhoenixDash
